import Mathlib

/-!
Verification of the aerosort core (bzyjin/aerosort) against its
natural-language specification.

The Rust sources are shallowly embedded as executable Lean definitions over
`List`: mutable slices become lists, pointer loops become structural or
well-founded recursion, and machine integers become `Nat` with explicit
`% 2 ^ w` where overflow matters.  Helpers that live in the `sort_util`
dependency (not part of the `src/` tree) are modelled from the spec and
marked as such in their doc comments.
-/

namespace Aerosort

variable {α : Type}

/-- Two elements compare equal ("equivalent") under a strict less-than
predicate: neither is less than the other. -/
def CmpEquiv (less : α → α → Bool) (x y : α) : Prop :=
  less x y = false ∧ less y x = false

/-- `less` is a strict weak order: irreflexive, transitive, and with
transitive complement (incomparability is transitive). -/
structure IsSWO (less : α → α → Bool) : Prop where
  irrefl : ∀ x, less x x = false
  lt_trans : ∀ x y z, less x y = true → less y z = true → less x z = true
  not_lt_trans : ∀ x y z, less x y = false → less y z = false → less x z = false

theorem IsSWO.asymm {less : α → α → Bool} (h : IsSWO less) {x y : α}
    (hxy : less x y = true) : less y x = false := by
  cases hyx : less y x with
  | false => rfl
  | true =>
    have hxx := h.lt_trans x y x hxy hyx
    rw [h.irrefl x] at hxx
    exact Bool.noConfusion hxx

/-- If `x < y` and `¬(z < y)` (so `y ≤ z`) then `x < z`. -/
theorem IsSWO.lt_of_lt_of_not_lt {less : α → α → Bool} (h : IsSWO less) {x y z : α}
    (hxy : less x y = true) (hzy : less z y = false) : less x z = true := by
  cases hxz : less x z with
  | true => rfl
  | false =>
    have := h.not_lt_trans x z y hxz hzy
    rw [hxy] at this
    exact Bool.noConfusion this

/-- If `¬(y < x)` (so `x ≤ y`) and `y < z` then `x < z`. -/
theorem IsSWO.lt_of_not_lt_of_lt {less : α → α → Bool} (h : IsSWO less) {x y z : α}
    (hyx : less y x = false) (hyz : less y z = true) : less x z = true := by
  cases hxz : less x z with
  | true => rfl
  | false =>
    have := h.not_lt_trans y x z hyx hxz
    rw [hyz] at this
    exact Bool.noConfusion this

/-- Natural-number strict comparison, the comparator used in all concrete
evaluations below. -/
def natLess (a b : Nat) : Bool := decide (a < b)

/-- `natLess` is a strict weak order. -/
theorem isSWO_natLess : IsSWO natLess := by
  constructor
  · intro x; simp [natLess]
  · intro x y z hxy hyz
    simp only [natLess, decide_eq_true_eq] at hxy hyz ⊢
    omega
  · intro x y z hxy hyz
    simp only [natLess, decide_eq_false_iff_not] at hxy hyz ⊢
    omega

/-- Scan from `start` for at most `fuel` steps while `p` holds; return the
first index at which `p` fails (or `start + fuel`). -/
def lowerBoundFrom (p : Nat → Bool) : Nat → Nat → Nat
  | _, 0 => 0
  | start, fuel + 1 => if p start then lowerBoundFrom p (start + 1) fuel + 1 else 0

/-- Modelled from the spec: `sort_util::lower_bound::binary` performs a binary
search over `[0, limit)` for a predicate that holds on a prefix, returning the
first index at which the predicate fails (`limit` when it holds everywhere). -/
def lowerBound (limit : Nat) (p : Nat → Bool) : Nat :=
  lowerBoundFrom p 0 limit

theorem lowerBoundFrom_le (p : Nat → Bool) (start fuel : Nat) :
    lowerBoundFrom p start fuel ≤ fuel := by
  induction fuel generalizing start with
  | zero => simp [lowerBoundFrom]
  | succ f ih =>
    rw [lowerBoundFrom]
    by_cases h : p start = true
    · rw [if_pos h]
      exact Nat.succ_le_succ (ih (start + 1))
    · rw [if_neg h]
      exact Nat.zero_le _

theorem lowerBoundFrom_pred_true (p : Nat → Bool) (start fuel : Nat) :
    ∀ i < lowerBoundFrom p start fuel, p (start + i) = true := by
  induction fuel generalizing start with
  | zero => intro i hi; simp [lowerBoundFrom] at hi
  | succ f ih =>
    intro i hi
    rw [lowerBoundFrom] at hi
    by_cases h : p start = true
    · rw [if_pos h] at hi
      cases i with
      | zero => simpa using h
      | succ j =>
        have := ih (start + 1) j (by omega)
        have harith : start + 1 + j = start + (j + 1) := by omega
        rwa [harith] at this
    · rw [if_neg h] at hi
      omega

theorem lowerBoundFrom_pred_false (p : Nat → Bool) (start fuel : Nat)
    (h : lowerBoundFrom p start fuel < fuel) :
    p (start + lowerBoundFrom p start fuel) = false := by
  induction fuel generalizing start with
  | zero => omega
  | succ f ih =>
    rw [lowerBoundFrom] at h ⊢
    by_cases hp : p start = true
    · rw [if_pos hp] at h ⊢
      have := ih (start + 1) (by omega)
      have harith : start + 1 + lowerBoundFrom p (start + 1) f
          = start + (lowerBoundFrom p (start + 1) f + 1) := by omega
      rwa [harith] at this
    · rw [if_neg hp] at h ⊢
      simpa using hp

theorem lowerBound_le (limit : Nat) (p : Nat → Bool) : lowerBound limit p ≤ limit :=
  lowerBoundFrom_le p 0 limit

theorem lowerBound_pred_true (limit : Nat) (p : Nat → Bool) :
    ∀ i < lowerBound limit p, p i = true := by
  intro i hi
  simpa using lowerBoundFrom_pred_true p 0 limit i hi

theorem lowerBound_pred_false (limit : Nat) (p : Nat → Bool)
    (h : lowerBound limit p < limit) : p (lowerBound limit p) = false := by
  simpa using lowerBoundFrom_pred_false p 0 limit h

/-! ## Key collection (`src/state.rs`) -/

/-- From `state.rs` lines 112-113: the key-count target `k`.  The source
computes `lower_bound::binary(n, |i| i * i < 2 * n)` and then subtracts one
unless the result squares to exactly `2 * n`; its comment asserts the result
equals `(2 * n).isqrt()`. -/
def kVal (n : Nat) : Nat :=
  let k0 := lowerBound n (fun i => decide (i * i < 2 * n))
  k0 - (if k0 * k0 ≠ 2 * n then 1 else 0)

/-- Insert a new key into the compact sorted run at its sorted position
(`LeftCollectState::insert`, final `op::insert_left` step; the insertion
index returned by `sort_util::search_unique` is modelled from the spec as
the sorted position in the run). -/
def insertRun (less : α → α → Bool) (x : α) : List α → List α
  | [] => [x]
  | y :: ys => if less y x then y :: insertRun less x ys else x :: y :: ys

/-- The state of a left-originating key collection, in list form: `rej` is
the sequence of passed-over non-key elements (rotations in the source keep
their relative order), `run` is the compact sorted run of collected keys. -/
structure CollectState (α : Type) where
  rej : List α
  run : List α

/-- One step of `LeftCollectState::insert`: skip the element if the run
holds one comparing equal to it (`search_unique` found it), otherwise
rotate the run up to it and insert it at its sorted position. -/
def collectInsert (less : α → α → Bool) (st : CollectState α) (x : α) : CollectState α :=
  if st.run.any (fun y => !less x y && !less y x) then
    { st with rej := st.rej ++ [x] }
  else
    { st with run := insertRun less x st.run }

/-- `LeftCollectState::scan`: fold `collectInsert` over the input, stopping
as soon as the run reaches `limit` keys; also return the unscanned rest. -/
def scanLoop (less : α → α → Bool) (limit : Nat) :
    CollectState α → List α → CollectState α × List α
  | st, [] => (st, [])
  | st, x :: xs =>
      if (collectInsert less st x).run.length = limit then (collectInsert less st x, xs)
      else scanLoop less limit (collectInsert less st x) xs

/-- Result of `collect_keys` (`state.rs` `UnionState`, left-aligned): the
key region (prefix of the permuted sequence), the chosen internal-buffer
length, and the task (the rest of the sequence). -/
structure CollectResult (α : Type) where
  keys : List α
  bufferLen : Nat
  task : List α

/-- `state.rs::collect_keys`: seed the run with `v[0]`, scan `v[1..]` up to
`kVal n` keys, pick the buffer length by binary search, and rotate the
collection to the left edge (so the final sequence is `keys ++ task`). -/
def collectKeys (less : α → α → Bool) (v : List α) : CollectResult α :=
  match v with
  | [] => ⟨[], 0, []⟩
  | x :: xs =>
    let n := xs.length + 1
    let k := kVal n
    let sr := scanLoop less k ⟨[], [x]⟩ xs
    let c := sr.1.run.length
    let bufferLen := c - lowerBound (c / 2) (fun len => decide (len < (n - c) / 2 / (c - len)))
    ⟨sr.1.run, bufferLen, sr.1.rej ++ sr.2⟩

example : (collectKeys natLess [2, 1, 2, 3]).keys = [1, 2] := by decide
example : (collectKeys natLess [5, 3, 3, 4]).task = [3, 4] := by decide
example : (collectKeys natLess [5, 3, 3, 4]).bufferLen = 2 := by decide

theorem insertRun_perm (less : α → α → Bool) (x : α) (l : List α) :
    List.Perm (insertRun less x l) (x :: l) := by
  induction l with
  | nil => simp [insertRun]
  | cons y ys ih =>
    rw [insertRun]
    by_cases h : less y x = true
    · rw [if_pos h]
      exact (List.Perm.cons y ih).trans (List.Perm.swap x y ys)
    · rw [if_neg h]

theorem insertRun_length (less : α → α → Bool) (x : α) (l : List α) :
    (insertRun less x l).length = l.length + 1 :=
  (insertRun_perm less x l).length_eq

/-- Inserting an element that compares equal to nothing in a strictly
ascending run yields a strictly ascending run. -/
theorem insertRun_pairwise {less : α → α → Bool} (h : IsSWO less) (x : α)
    {l : List α} (hl : l.Pairwise (fun a b => less a b = true))
    (hx : ∀ y ∈ l, less x y = true ∨ less y x = true) :
    (insertRun less x l).Pairwise (fun a b => less a b = true) := by
  induction l with
  | nil => simp [insertRun]
  | cons y ys ih =>
    rw [List.pairwise_cons] at hl
    rw [insertRun]
    by_cases hyx : less y x = true
    · rw [if_pos hyx]
      rw [List.pairwise_cons]
      constructor
      · intro z hz
        rcases List.mem_cons.mp ((insertRun_perm less x ys).mem_iff.mp hz) with hzx | hzys
        · rw [hzx]; exact hyx
        · exact hl.1 z hzys
      · exact ih hl.2 (fun y' hy' => hx y' (List.mem_cons_of_mem y hy'))
    · rw [if_neg hyx]
      have hxy : less x y = true := by
        rcases hx y (List.mem_cons_self y ys) with h1 | h1
        · exact h1
        · exact absurd h1 hyx
      rw [List.pairwise_cons]
      constructor
      · intro z hz
        rcases List.mem_cons.mp hz with hzy | hzys
        · rw [hzy]; exact hxy
        · exact h.lt_trans x y z hxy (hl.1 z hzys)
      · exact List.pairwise_cons.mpr hl

theorem collectInsert_run_pairwise {less : α → α → Bool} (h : IsSWO less)
    {st : CollectState α} (x : α)
    (hst : st.run.Pairwise (fun a b => less a b = true)) :
    (collectInsert less st x).run.Pairwise (fun a b => less a b = true) := by
  rw [collectInsert]
  by_cases hany : st.run.any (fun y => !less x y && !less y x) = true
  · rw [if_pos hany]; exact hst
  · rw [if_neg hany]
    apply insertRun_pairwise h x hst
    intro y hy
    rw [List.any_eq_true] at hany
    push_neg at hany
    have := hany y hy
    cases h1 : less x y with
    | true => exact Or.inl rfl
    | false =>
      cases h2 : less y x with
      | true => exact Or.inr rfl
      | false => rw [h1, h2] at this; simp at this

/-- The multiset effect of one collection step: the processed element joins
either the rejected region or the run. -/
theorem collectInsert_perm (less : α → α → Bool) (st : CollectState α) (x : α) :
    List.Perm ((collectInsert less st x).rej ++ (collectInsert less st x).run)
      (x :: (st.rej ++ st.run)) := by
  rw [collectInsert]
  by_cases hany : st.run.any (fun y => !less x y && !less y x) = true
  · rw [if_pos hany]
    simp only [List.append_assoc, List.singleton_append]
    exact List.perm_middle
  · rw [if_neg hany]
    exact (List.Perm.append_left st.rej (insertRun_perm less x st.run)).trans
      List.perm_middle

theorem collectInsert_run_length (less : α → α → Bool) (st : CollectState α) (x : α) :
    (collectInsert less st x).run.length = st.run.length ∨
      (collectInsert less st x).run.length = st.run.length + 1 := by
  rw [collectInsert]
  by_cases hany : st.run.any (fun y => !less x y && !less y x) = true
  · rw [if_pos hany]; exact Or.inl rfl
  · rw [if_neg hany]; exact Or.inr (insertRun_length less x st.run)

theorem scanLoop_run_length_mono (less : α → α → Bool) (limit : Nat)
    (st : CollectState α) (xs : List α) :
    st.run.length ≤ (scanLoop less limit st xs).1.run.length := by
  induction xs generalizing st with
  | nil => simp [scanLoop]
  | cons x xs ih =>
    rw [scanLoop]
    have hstep : st.run.length ≤ (collectInsert less st x).run.length := by
      rcases collectInsert_run_length less st x with h1 | h1 <;> omega
    by_cases hb : (collectInsert less st x).run.length = limit
    · rw [if_pos hb]; exact hstep
    · rw [if_neg hb]; exact le_trans hstep (ih (collectInsert less st x))

theorem scanLoop_run_length_le (less : α → α → Bool) (limit : Nat)
    (st : CollectState α) (xs : List α) (h : st.run.length < limit) :
    (scanLoop less limit st xs).1.run.length ≤ limit := by
  induction xs generalizing st with
  | nil => simp [scanLoop]; omega
  | cons x xs ih =>
    rw [scanLoop]
    have hstep : (collectInsert less st x).run.length ≤ limit := by
      rcases collectInsert_run_length less st x with h1 | h1 <;> omega
    by_cases hb : (collectInsert less st x).run.length = limit
    · rw [if_pos hb]; exact hstep
    · rw [if_neg hb]
      exact ih (collectInsert less st x) (by omega)

theorem scanLoop_run_pairwise {less : α → α → Bool} (h : IsSWO less) (limit : Nat)
    (st : CollectState α) (xs : List α)
    (hst : st.run.Pairwise (fun a b => less a b = true)) :
    (scanLoop less limit st xs).1.run.Pairwise (fun a b => less a b = true) := by
  induction xs generalizing st with
  | nil => simpa [scanLoop] using hst
  | cons x xs ih =>
    rw [scanLoop]
    have hstep := collectInsert_run_pairwise h x hst
    by_cases hb : (collectInsert less st x).run.length = limit
    · rw [if_pos hb]; exact hstep
    · rw [if_neg hb]; exact ih (collectInsert less st x) hstep

theorem scanLoop_perm (less : α → α → Bool) (limit : Nat)
    (st : CollectState α) (xs : List α) :
    List.Perm ((scanLoop less limit st xs).1.rej ++ (scanLoop less limit st xs).1.run
        ++ (scanLoop less limit st xs).2)
      (st.rej ++ st.run ++ xs) := by
  induction xs generalizing st with
  | nil => simp [scanLoop]
  | cons x xs ih =>
    rw [scanLoop]
    have hmid : List.Perm ((collectInsert less st x).rej ++ (collectInsert less st x).run ++ xs)
        (st.rej ++ st.run ++ x :: xs) := by
      have h1 : List.Perm ((collectInsert less st x).rej ++ (collectInsert less st x).run ++ xs)
          (x :: (st.rej ++ st.run ++ xs)) := by
        have := List.Perm.append_right xs (collectInsert_perm less st x)
        simpa using this
      exact h1.trans List.perm_middle.symm
    by_cases hb : (collectInsert less st x).run.length = limit
    · rw [if_pos hb]; exact hmid
    · rw [if_neg hb]
      exact (ih (collectInsert less st x)).trans hmid

/-- If scanning with a target of at least 2 keys ends with a single key,
then every scanned element compared equal to the seed key. -/
theorem scanLoop_run_singleton (less : α → α → Bool) (limit : Nat)
    (h2 : 2 ≤ limit) (rej xs : List α) (a : α)
    (hone : (scanLoop less limit ⟨rej, [a]⟩ xs).1.run.length = 1) :
    ∀ x ∈ xs, CmpEquiv less x a := by
  induction xs generalizing rej with
  | nil => intro x hx; simp at hx
  | cons x xs ih =>
    rw [scanLoop] at hone
    by_cases hany : ([a].any (fun y => !less x y && !less y x)) = true
    · have hci : collectInsert less ⟨rej, [a]⟩ x = ⟨rej ++ [x], [a]⟩ := by
        rw [collectInsert]
        rw [if_pos hany]
      rw [hci] at hone
      have hlim : ¬ (([a] : List α).length = limit) := by simp; omega
      rw [if_neg (by simpa using hlim)] at hone
      have heq : CmpEquiv less x a := by
        simp only [List.any_cons, List.any_nil, Bool.or_false, Bool.and_eq_true,
          Bool.not_eq_true'] at hany
        exact ⟨hany.1, hany.2⟩
      intro z hz
      rcases List.mem_cons.mp hz with hzx | hzxs
      · rw [hzx]; exact heq
      · exact ih (rej ++ [x]) hone z hzxs
    · have hci : collectInsert less ⟨rej, [a]⟩ x = ⟨rej, insertRun less x [a]⟩ := by
        rw [collectInsert]
        rw [if_neg hany]
      rw [hci] at hone
      have hlen2 : (insertRun less x [a]).length = 2 := by
        rw [insertRun_length]; rfl
      by_cases hb : (insertRun less x [a]).length = limit
      · rw [if_pos (by simpa using hb)] at hone
        simp only at hone
        omega
      · rw [if_neg (by simpa using hb)] at hone
        have := scanLoop_run_length_mono less limit ⟨rej, insertRun less x [a]⟩ xs
        simp only at this
        omega

/-- The source's key-count target equals `⌊√(2n)⌋`, as the comment in
`state.rs` asserts. -/
theorem kVal_eq_sqrt (n : Nat) (hn : 2 ≤ n) : kVal n = Nat.sqrt (2 * n) := by
  have hk0le := lowerBound_le n (fun i => decide (i * i < 2 * n))
  set k0 := lowerBound n (fun i => decide (i * i < 2 * n)) with hk0
  have h1 : 1 ≤ k0 := by
    by_contra hc
    have hk00 : k0 = 0 := by omega
    have := lowerBound_pred_false n (fun i => decide (i * i < 2 * n)) (by omega)
    rw [← hk0, hk00] at this
    simp at this
    omega
  have h2 : (k0 - 1) * (k0 - 1) < 2 * n := by
    have := lowerBound_pred_true n (fun i => decide (i * i < 2 * n)) (k0 - 1)
      (by omega)
    simpa using this
  have h3 : 2 * n ≤ k0 * k0 := by
    by_cases hlt : k0 < n
    · have := lowerBound_pred_false n (fun i => decide (i * i < 2 * n)) (by omega)
      rw [← hk0] at this
      simpa using this
    · have hk0n : k0 = n := by omega
      rw [hk0n]
      nlinarith
  rw [kVal]
  simp only [← hk0]
  by_cases hsq : k0 * k0 = 2 * n
  · rw [if_neg (by omega)]
    rw [← hsq, Nat.sqrt_eq]
    omega
  · rw [if_pos (by omega)]
    rw [Nat.eq_sqrt]
    constructor
    · omega
    · have : k0 - 1 + 1 = k0 := by omega
      rw [this]
      omega

theorem collectKeys_cons_keys (less : α → α → Bool) (x : α) (xs : List α) :
    (collectKeys less (x :: xs)).keys
      = (scanLoop less (kVal (xs.length + 1)) ⟨[], [x]⟩ xs).1.run := rfl

theorem collectKeys_cons_task (less : α → α → Bool) (x : α) (xs : List α) :
    (collectKeys less (x :: xs)).task
      = (scanLoop less (kVal (xs.length + 1)) ⟨[], [x]⟩ xs).1.rej
        ++ (scanLoop less (kVal (xs.length + 1)) ⟨[], [x]⟩ xs).2 := rfl

theorem collectKeys_cons_bufferLen (less : α → α → Bool) (x : α) (xs : List α) :
    (collectKeys less (x :: xs)).bufferLen
      = (scanLoop less (kVal (xs.length + 1)) ⟨[], [x]⟩ xs).1.run.length
        - lowerBound ((scanLoop less (kVal (xs.length + 1)) ⟨[], [x]⟩ xs).1.run.length / 2)
            (fun len => decide (len < (xs.length + 1
              - (scanLoop less (kVal (xs.length + 1)) ⟨[], [x]⟩ xs).1.run.length) / 2
              / ((scanLoop less (kVal (xs.length + 1)) ⟨[], [x]⟩ xs).1.run.length - len)))
      := rfl

/-- The collected keys are strictly ascending (hence pairwise distinct). -/
theorem collectKeys_keys_pairwise {less : α → α → Bool} (h : IsSWO less) (v : List α) :
    (collectKeys less v).keys.Pairwise (fun a b => less a b = true) := by
  cases v with
  | nil => simp [collectKeys]
  | cons x xs =>
    rw [collectKeys_cons_keys]
    exact scanLoop_run_pairwise h _ _ xs (by simp)

/-- Key collection permutes the sequence into `keys ++ task`. -/
theorem collectKeys_perm (less : α → α → Bool) (v : List α) :
    List.Perm ((collectKeys less v).keys ++ (collectKeys less v).task) v := by
  cases v with
  | nil => simp [collectKeys]
  | cons x xs =>
    rw [collectKeys_cons_keys, collectKeys_cons_task]
    have hs := scanLoop_perm less (kVal (xs.length + 1)) ⟨[], [x]⟩ xs
    simp only at hs
    have hcomm : List.Perm
        ((scanLoop less (kVal (xs.length + 1)) ⟨[], [x]⟩ xs).1.run
          ++ ((scanLoop less (kVal (xs.length + 1)) ⟨[], [x]⟩ xs).1.rej
            ++ (scanLoop less (kVal (xs.length + 1)) ⟨[], [x]⟩ xs).2))
        ((scanLoop less (kVal (xs.length + 1)) ⟨[], [x]⟩ xs).1.rej
          ++ (scanLoop less (kVal (xs.length + 1)) ⟨[], [x]⟩ xs).1.run
          ++ (scanLoop less (kVal (xs.length + 1)) ⟨[], [x]⟩ xs).2) := by
      simp only [← List.append_assoc]
      exact List.Perm.append_right _ List.perm_append_comm
    refine hcomm.trans ?_
    simpa using hs

/-- At most `⌊√(2n)⌋` keys are collected. -/
theorem collectKeys_length_le (less : α → α → Bool) (v : List α)
    (hn : 2 ≤ v.length) :
    (collectKeys less v).keys.length ≤ Nat.sqrt (2 * v.length) := by
  cases v with
  | nil => simp at hn
  | cons x xs =>
    rw [collectKeys_cons_keys]
    have hnlen : (x :: xs).length = xs.length + 1 := rfl
    have hksqrt : kVal (xs.length + 1) = Nat.sqrt (2 * (xs.length + 1)) :=
      kVal_eq_sqrt _ (by simp at hn; omega)
    have hk2 : 2 ≤ kVal (xs.length + 1) := by
      rw [hksqrt]
      rw [Nat.le_sqrt]
      simp at hn
      omega
    have := scanLoop_run_length_le less (kVal (xs.length + 1)) ⟨[], [x]⟩ xs
      (by simp; omega)
    rw [hnlen, ← hksqrt]
    exact this

/-- At least one key is always collected (the run is seeded with `v[0]`). -/
theorem collectKeys_keys_ne_nil (less : α → α → Bool) (v : List α) (hv : v ≠ []) :
    (collectKeys less v).keys ≠ [] := by
  cases v with
  | nil => exact absurd rfl hv
  | cons x xs =>
    rw [collectKeys_cons_keys]
    have := scanLoop_run_length_mono less (kVal (xs.length + 1)) ⟨[], [x]⟩ xs
    simp only at this
    intro hnil
    rw [hnil] at this
    simp at this

/-- If only one key is collected (with `n ≥ 2`), every element of `v`
compares equal to every other: `v` is constant under the comparator. -/
theorem collectKeys_singleton_const {less : α → α → Bool} (h : IsSWO less)
    (v : List α) (hn : 2 ≤ v.length)
    (hone : (collectKeys less v).keys.length = 1) :
    ∀ x ∈ v, ∀ y ∈ v, CmpEquiv less x y := by
  cases v with
  | nil => simp at hn
  | cons a xs =>
    rw [collectKeys_cons_keys] at hone
    have hk2 : 2 ≤ kVal (xs.length + 1) := by
      rw [kVal_eq_sqrt _ (by simp at hn; omega)]
      rw [Nat.le_sqrt]
      simp at hn
      omega
    have hall := scanLoop_run_singleton less (kVal (xs.length + 1)) hk2 [] xs a hone
    have hequiv : ∀ x ∈ a :: xs, CmpEquiv less x a := by
      intro x hx
      rcases List.mem_cons.mp hx with hxa | hxxs
      · rw [hxa]; exact ⟨h.irrefl a, h.irrefl a⟩
      · exact hall x hxxs
    intro x hx y hy
    have h1 := hequiv x hx
    have h2 := hequiv y hy
    exact ⟨h.not_lt_trans x a y h1.1 h2.2, h.not_lt_trans y a x h2.1 h1.2⟩

/-! ## Small sorts (`src/mini.rs`) and the sort driver (`src/aero.rs`) -/

/-- One step of `mini.rs::insertion_sort_safe`: lift `x`, walk left from the
end of the prefix shifting every element strictly greater than `x` one slot
right, and deposit `x` into the vacated slot. -/
def insertFromRight (less : α → α → Bool) (x : α) (l : List α) : List α :=
  l.take (l.length - (l.reverse.takeWhile (fun y => less x y)).length)
    ++ x :: l.drop (l.length - (l.reverse.takeWhile (fun y => less x y)).length)

/-- `mini.rs::insertion_sort_safe`: insert each element in turn into the
growing sorted prefix. -/
def insertionSortSafe (less : α → α → Bool) : List α → List α
  | [] => []
  | x :: xs => xs.foldl (fun acc y => insertFromRight less y acc) [x]

example : insertionSortSafe natLess [3, 1, 2] = [1, 2, 3] := by decide
example : insertionSortSafe natLess [2, 2, 1, 3, 0] = [0, 1, 2, 2, 3] := by decide

theorem insertFromRight_perm (less : α → α → Bool) (x : α) (l : List α) :
    List.Perm (insertFromRight less x l) (x :: l) := by
  rw [insertFromRight]
  refine List.perm_middle.trans ?_
  rw [List.take_append_drop]

theorem insertionSortSafe_perm (less : α → α → Bool) (v : List α) :
    List.Perm (insertionSortSafe less v) v := by
  cases v with
  | nil => simp [insertionSortSafe]
  | cons x xs =>
    rw [insertionSortSafe]
    suffices h : ∀ acc : List α,
        List.Perm (xs.foldl (fun acc y => insertFromRight less y acc) acc) (acc ++ xs) by
      simpa using h [x]
    induction xs with
    | nil => simp
    | cons y ys ih =>
      intro acc
      rw [List.foldl_cons]
      refine (ih (insertFromRight less y acc)).trans ?_
      have h1 : List.Perm (insertFromRight less y acc ++ ys) ((y :: acc) ++ ys) :=
        List.Perm.append_right ys (insertFromRight_perm less y acc)
      refine h1.trans ?_
      simp only [List.cons_append]
      exact (List.perm_middle.symm : List.Perm (y :: (acc ++ ys)) (acc ++ y :: ys))

/-- The strategy selected by the `sort_full` driver. -/
inductive Strategy where
  /-- `n ≤ 64`: plain insertion sort. -/
  | insertionSmall
  /-- `|ext| ≥ n / 2`: every merge is an external-buffer merge. -/
  | externalEasy
  /-- key collection found a single value: return immediately. -/
  | singleValue
  /-- 2-12 keys: fully in-place rotation-merge sort of the whole `v`. -/
  | lazyRotation
  /-- 13 or more keys: internal (external → basic → block) sort of the
  task, then key restoration. -/
  | internalRestore
  deriving DecidableEq

/-- The entry dispatch of `aero.rs::sort_full` (lines 61-90): insertion sort
for `n ≤ 64`; the easy external path when `|ext| ≥ n / 2`; otherwise key
collection followed by the match on the number of collected keys. -/
def sortFullStrategy (less : α → α → Bool) (v ext : List α) : Strategy :=
  if v.length ≤ 64 then .insertionSmall
  else if v.length / 2 ≤ ext.length then .externalEasy
  else if (collectKeys less v).keys.length = 1 then .singleValue
  else if 2 ≤ (collectKeys less v).keys.length ∧ (collectKeys less v).keys.length ≤ 12 then
    .lazyRotation
  else .internalRestore

/-- The small-array path of `sort_full` (aero.rs lines 64-67): the driver
returns `insertion_sort_safe(v, less)`; the external buffer is not passed
to it and is left untouched. -/
def sortFullSmall (less : α → α → Bool) (v ext : List α) : List α × List α :=
  (insertionSortSafe less v, ext)

/-- `keys.rs::Keys::can_merge` (lines 81-87): returns `true` when the key
region is non-empty; an empty key region runs into
`core::hint::unreachable_unchecked()`, modelled as `none`. -/
def keysCanMerge (inner : List α) : Option Bool :=
  if inner.isEmpty then none else some true

/-! ## Claim theorems: dispatch, key collection -/

/-- C2: with `n > 64` and `|X| < n/2`, `sort_full` collects keys and
dispatches on the collected count `c`: `c = 1` means every element of `V`
compares equal to every other (so `V` is already sorted) and the sort
returns; `2 ≤ c ≤ 12` selects the fully in-place rotation-merge sort of the
whole `V`; `c ≥ 13` selects the internal sort of the task followed by key
restoration. -/
theorem sortFull_dispatch {less : α → α → Bool} (h : IsSWO less)
    (v ext : List α) (hn : 64 < v.length) (hx : ext.length < v.length / 2) :
    ((collectKeys less v).keys.length = 1 →
        sortFullStrategy less v ext = Strategy.singleValue ∧
        (∀ x ∈ v, ∀ y ∈ v, CmpEquiv less x y) ∧
        List.Chain' (fun x y => less y x = false) v) ∧
    (2 ≤ (collectKeys less v).keys.length → (collectKeys less v).keys.length ≤ 12 →
        sortFullStrategy less v ext = Strategy.lazyRotation) ∧
    (13 ≤ (collectKeys less v).keys.length →
        sortFullStrategy less v ext = Strategy.internalRestore) := by
  have h64 : ¬ v.length ≤ 64 := by omega
  have hext : ¬ v.length / 2 ≤ ext.length := by omega
  refine ⟨?_, ?_, ?_⟩
  · intro h1
    have hconst := collectKeys_singleton_const h v (by omega) h1
    refine ⟨?_, hconst, ?_⟩
    · rw [sortFullStrategy, if_neg h64, if_neg hext, if_pos h1]
    · have hpw : v.Pairwise (fun x y => less y x = false) :=
        List.pairwise_of_forall_mem_list (fun a ha b hb => (hconst a ha b hb).2)
      exact hpw.chain'
  · intro h2 h12
    rw [sortFullStrategy, if_neg h64, if_neg hext, if_neg (by omega),
      if_pos ⟨h2, h12⟩]
  · intro h13
    rw [sortFullStrategy, if_neg h64, if_neg hext, if_neg (by omega),
      if_neg (by omega)]

/-- Witness for C2: a 65-element constant sequence takes the `c = 1` branch
and is constant (hence sorted); its hypotheses hold at this input. -/
theorem sortFull_dispatch_witness :
    64 < (List.replicate 65 (0 : Nat)).length ∧
    ([] : List Nat).length < (List.replicate 65 (0 : Nat)).length / 2 ∧
    (((collectKeys natLess (List.replicate 65 (0 : Nat))).keys.length = 1 →
        sortFullStrategy natLess (List.replicate 65 (0 : Nat)) [] = Strategy.singleValue ∧
        (∀ x ∈ List.replicate 65 (0 : Nat), ∀ y ∈ List.replicate 65 (0 : Nat),
          CmpEquiv natLess x y) ∧
        List.Chain' (fun x y => natLess y x = false) (List.replicate 65 (0 : Nat))) ∧
      (2 ≤ (collectKeys natLess (List.replicate 65 (0 : Nat))).keys.length →
          (collectKeys natLess (List.replicate 65 (0 : Nat))).keys.length ≤ 12 →
          sortFullStrategy natLess (List.replicate 65 (0 : Nat)) [] = Strategy.lazyRotation) ∧
      (13 ≤ (collectKeys natLess (List.replicate 65 (0 : Nat))).keys.length →
          sortFullStrategy natLess (List.replicate 65 (0 : Nat)) [] =
            Strategy.internalRestore)) :=
  ⟨by decide, by decide,
    sortFull_dispatch isSWO_natLess (List.replicate 65 (0 : Nat)) []
      (by decide) (by decide)⟩

/-- C4: `collect_keys` collects at most `⌊√(2n)⌋` keys, pairwise distinct
under the comparator, sorted ascending, and the keys followed by the task
are a permutation of the input. -/
theorem collectKeys_correct {less : α → α → Bool} (h : IsSWO less)
    (v : List α) (hn : 2 ≤ v.length) :
    (collectKeys less v).keys.length ≤ Nat.sqrt (2 * v.length) ∧
    (collectKeys less v).keys.Pairwise (fun a b => less a b = true) ∧
    (collectKeys less v).keys.Pairwise (fun a b => ¬ CmpEquiv less a b) ∧
    List.Perm ((collectKeys less v).keys ++ (collectKeys less v).task) v := by
  refine ⟨collectKeys_length_le less v hn, collectKeys_keys_pairwise h v, ?_,
    collectKeys_perm less v⟩
  refine (collectKeys_keys_pairwise h v).imp ?_
  intro a b hab heq
  rw [heq.1] at hab
  exact Bool.noConfusion hab

/-- Witness for C4 at a concrete input with duplicate values. -/
theorem collectKeys_correct_witness :
    (collectKeys natLess [2, 1, 2, 3]).keys.length ≤ Nat.sqrt (2 * [2, 1, 2, 3].length) ∧
    (collectKeys natLess [2, 1, 2, 3]).keys.Pairwise (fun a b => natLess a b = true) ∧
    (collectKeys natLess [2, 1, 2, 3]).keys.Pairwise (fun a b => ¬ CmpEquiv natLess a b) ∧
    List.Perm ((collectKeys natLess [2, 1, 2, 3]).keys
      ++ (collectKeys natLess [2, 1, 2, 3]).task) [2, 1, 2, 3] :=
  collectKeys_correct isSWO_natLess [2, 1, 2, 3] (by decide)

/-- C7: on the internal-strategy path the key region is non-empty, so the
`unreachable_unchecked` branch of `Keys::can_merge` is never executed. -/
theorem keysCanMerge_no_ub {less : α → α → Bool} (v ext : List α)
    (hn : 64 < v.length) (hx : ext.length < v.length / 2)
    (hpath : sortFullStrategy less v ext = Strategy.internalRestore) :
    keysCanMerge (collectKeys less v).keys = some true := by
  have hne : (collectKeys less v).keys ≠ [] := by
    apply collectKeys_keys_ne_nil
    intro hnil
    rw [hnil] at hn
    simp at hn
  rw [keysCanMerge, if_neg (by simpa using hne)]

/-- Witness for C7: 100 distinct values collect 14 keys and take the
internal path; `can_merge` returns `true` there. -/
theorem keysCanMerge_no_ub_witness :
    64 < (List.range 100).length ∧
    ([] : List Nat).length < (List.range 100).length / 2 ∧
    sortFullStrategy natLess (List.range 100) [] = Strategy.internalRestore ∧
    keysCanMerge (collectKeys natLess (List.range 100)).keys = some true :=
  ⟨by decide, by decide, by decide,
    keysCanMerge_no_ub (List.range 100) [] (by decide) (by decide) (by decide)⟩

/-- C10: for `|V| ≤ 64` the driver picks the small path, which runs
insertion sort on `V` alone (a permutation of `V`), and the auxiliary
buffer comes back unchanged. -/
theorem sortFull_small_frame (less : α → α → Bool) (v ext : List α)
    (h : v.length ≤ 64) :
    sortFullStrategy less v ext = Strategy.insertionSmall ∧
    (sortFullSmall less v ext).2 = ext ∧
    List.Perm (sortFullSmall less v ext).1 v := by
  refine ⟨?_, rfl, insertionSortSafe_perm less v⟩
  rw [sortFullStrategy, if_pos h]

/-- Witness for C10 at a concrete small input. -/
theorem sortFull_small_frame_witness :
    sortFullStrategy natLess [3, 1, 2] [9] = Strategy.insertionSmall ∧
    (sortFullSmall natLess [3, 1, 2] [9]).2 = [9] ∧
    List.Perm (sortFullSmall natLess [3, 1, 2] [9]).1 [3, 1, 2] :=
  sortFull_small_frame natLess [3, 1, 2] [9] (by decide)

/-! ## Claim C3: the internal-buffer length -/

/-- The buffer length exactly as claim C3 words it: the largest value
`b ≤ c/2` for which `b < (n - c) / (2 * (c - b))` does **not** hold
(0 when no such value exists). -/
def claimedBufferLen (n c : Nat) : Nat :=
  ((List.range (c / 2 + 1)).filter
    (fun b => !decide (b < (n - c) / (2 * (c - b))))).foldr max 0

/-- Counterexample to C3 as stated: on the 30 distinct values `0..29`,
`collect_keys` collects `c = 7` keys and chooses `buffer_len = 6`, while
the largest `b ≤ c/2 = 3` failing `b < (n-c)/(2(c-b))` is `3`. -/
theorem collectKeys_bufferLen_counterexample :
    (collectKeys natLess (List.range 30)).keys.length = 7 ∧
    (collectKeys natLess (List.range 30)).bufferLen = 6 ∧
    claimedBufferLen 30 7 = 3 ∧
    (collectKeys natLess (List.range 30)).bufferLen ≠
      claimedBufferLen (List.range 30).length
        ((collectKeys natLess (List.range 30)).keys.length) := by decide

/-- C3 amended: `b_len = c - t₀`, where `t₀` (found by binary search) is
the *smallest* tags count `t ≤ c/2` for which `t < (n - c) / (2 * (c - t))`
fails — i.e. the minimal count of tags still sufficient for the task —
taking `t₀ = c/2` when the inequality holds for every `t < c/2`. -/
theorem collectKeys_bufferLen_eq (less : α → α → Bool) (v : List α) :
    ∃ t0, (collectKeys less v).bufferLen = (collectKeys less v).keys.length - t0 ∧
      t0 ≤ (collectKeys less v).keys.length / 2 ∧
      (∀ t < t0, t < (v.length - (collectKeys less v).keys.length)
          / (2 * ((collectKeys less v).keys.length - t))) ∧
      (t0 < (collectKeys less v).keys.length / 2 →
        ¬ t0 < (v.length - (collectKeys less v).keys.length)
          / (2 * ((collectKeys less v).keys.length - t0))) := by
  cases v with
  | nil =>
    refine ⟨0, ?_, ?_, ?_, ?_⟩ <;> simp [collectKeys]
  | cons x xs =>
    have hlen : (x :: xs).length = xs.length + 1 := rfl
    rw [collectKeys_cons_keys, collectKeys_cons_bufferLen, hlen]
    set c := (scanLoop less (kVal (xs.length + 1)) ⟨[], [x]⟩ xs).1.run.length with hc
    set p := fun len => decide (len < (xs.length + 1 - c) / 2 / (c - len)) with hp
    refine ⟨lowerBound (c / 2) p, rfl, lowerBound_le _ _, ?_, ?_⟩
    · intro t ht
      have := lowerBound_pred_true (c / 2) p t ht
      rw [hp] at this
      simp only [decide_eq_true_eq] at this
      rwa [Nat.div_div_eq_div_mul] at this
    · intro hlt hcontra
      have := lowerBound_pred_false (c / 2) p hlt
      rw [hp] at this
      simp only [decide_eq_false_iff_not] at this
      rw [Nat.div_div_eq_div_mul] at this
      exact this hcontra

/-! ## Primitive merges (`src/merge.rs`) -/

/-- `sort_util::Sorted`: the strategy-selection signal returned by merge
attempts. -/
inductive MergeOutcome where
  | Done
  | Fail
  deriving DecidableEq

/-- `merge.rs::merge_up` (lines 49-74) at the list level: merge two
adjacent sorted runs front to back.  Each loop step takes the right element
exactly when `less(b[j], a[i])`; the `Gap` guard's normal exit deposits the
unconsumed tail, giving the base cases. -/
def mergeUpList (less : α → α → Bool) : List α → List α → List α
  | [], b => b
  | a, [] => a
  | x :: a, y :: b =>
    if less y x then y :: mergeUpList less (x :: a) b
    else x :: mergeUpList less a (y :: b)

/-- The right-to-left loop of `merge.rs::merge_down` (lines 79-101), acting
on the reversed runs: each step takes (places last) the left element
exactly when `less(b[m-1], a[n-1])`. -/
def mergeDownRev (less : α → α → Bool) : List α → List α → List α
  | ra, [] => ra
  | [], rb => rb
  | l :: ra, r :: rb =>
    if less r l then l :: mergeDownRev less ra (r :: rb)
    else r :: mergeDownRev less (l :: ra) rb

/-- `merge.rs::merge_down`: merge two adjacent sorted runs back to front. -/
def mergeDownList (less : α → α → Bool) (a b : List α) : List α :=
  (mergeDownRev less a.reverse b.reverse).reverse

theorem mergeUpList_nil_left (less : α → α → Bool) (b : List α) :
    mergeUpList less [] b = b := by
  cases b <;> simp [mergeUpList]

theorem mergeUpList_nil_right (less : α → α → Bool) (a : List α) :
    mergeUpList less a [] = a := by
  cases a <;> simp [mergeUpList]

theorem mergeUpList_cons_cons (less : α → α → Bool) (x y : α) (a b : List α) :
    mergeUpList less (x :: a) (y :: b) =
      if less y x then y :: mergeUpList less (x :: a) b
      else x :: mergeUpList less a (y :: b) := by
  simp [mergeUpList]

theorem mergeDownRev_nil_right (less : α → α → Bool) (ra : List α) :
    mergeDownRev less ra [] = ra := by
  cases ra <;> simp [mergeDownRev]

theorem mergeDownRev_nil_left (less : α → α → Bool) (rb : List α) :
    mergeDownRev less [] rb = rb := by
  cases rb <;> simp [mergeDownRev]

theorem mergeDownRev_cons_cons (less : α → α → Bool) (l r : α) (ra rb : List α) :
    mergeDownRev less (l :: ra) (r :: rb) =
      if less r l then l :: mergeDownRev less ra (r :: rb)
      else r :: mergeDownRev less (l :: ra) rb := by
  simp [mergeDownRev]

example : mergeUpList natLess [1, 3, 5] [2, 3, 4] = [1, 2, 3, 3, 4, 5] := by
  simp [mergeUpList, natLess]
example : mergeDownList natLess [1, 3, 5] [2, 3, 4] = [1, 2, 3, 3, 4, 5] := by
  simp [mergeDownList, mergeDownRev, natLess]

/-- `blocks.rs` `Block::A` (line 16): A-blocks are identified by `true`. -/
def BlockA : Bool := true

/-- The block-choice expression of `blocks.rs::MergeState::drop_once`
(line 75): drop an A-block when no B-blocks remain, or when A-blocks remain
and the candidate B-block head is not less than the minimum A-block head.  -/
def dropId (less : α → α → Bool) (cntA cntB : Nat) (bHead aHead : α) : Bool :=
  cntB == 0 || (cntA != 0 && !less bHead aHead)

theorem mergeUpList_single_max {less : α → α → Bool} (u : α) (c : List α)
    (hc : ∀ y ∈ c, less y u = true) :
    mergeUpList less [u] c = c ++ [u] := by
  induction c with
  | nil => simp [mergeUpList_nil_right]
  | cons y c ih =>
    rw [mergeUpList_cons_cons, if_pos (hc y (List.mem_cons_self y c))]
    rw [ih (fun z hz => hc z (List.mem_cons_of_mem y hz))]
    simp

theorem mergeUpList_single_min {less : α → α → Bool} (v : α) (c : List α)
    (hc : ∀ z ∈ c, less v z = false) :
    mergeUpList less c [v] = c ++ [v] := by
  induction c with
  | nil => simp [mergeUpList_nil_left]
  | cons x c ih =>
    have h1 := hc x (List.mem_cons_self x c)
    rw [mergeUpList_cons_cons, if_neg (by rw [h1]; exact Bool.noConfusion)]
    rw [ih (fun z hz => hc z (List.mem_cons_of_mem x hz))]
    simp

/-- When the right run's maximum is strictly below `u`, the forward merge
sends `u` to the very end. -/
theorem mergeUpList_concat_right {less : α → α → Bool} (h : IsSWO less)
    (n : Nat) : ∀ (a b : List α) (u v : α), a.length + b.length ≤ n →
    List.Pairwise (fun x y => less y x = false) (b ++ [v]) →
    less v u = true →
    mergeUpList less (a ++ [u]) (b ++ [v])
      = mergeUpList less a (b ++ [v]) ++ [u] := by
  have hnil : ∀ (b : List α) (u v : α),
      List.Pairwise (fun x y => less y x = false) (b ++ [v]) →
      less v u = true →
      mergeUpList less ([] ++ [u]) (b ++ [v])
        = mergeUpList less [] (b ++ [v]) ++ [u] := by
    intro b u v pb hvu
    simp only [List.nil_append, mergeUpList_nil_left]
    apply mergeUpList_single_max
    intro y hy
    rcases List.mem_append.mp hy with hyb | hyv
    · have hvy : less v y = false :=
        (List.pairwise_append.mp pb).2.2 y hyb v (by simp)
      exact h.lt_of_not_lt_of_lt hvy hvu
    · have hyv' : y = v := by simpa using hyv
      rw [hyv']; exact hvu
  induction n with
  | zero =>
    intro a b u v hlen pb hvu
    have ha : a = [] := by
      cases a with
      | nil => rfl
      | cons _ _ => simp at hlen
    rw [ha]
    exact hnil b u v pb hvu
  | succ n ih =>
    intro a b u v hlen pb hvu
    cases a with
    | nil => exact hnil b u v pb hvu
    | cons x a' =>
      cases b with
      | nil =>
        simp only [List.nil_append] at pb ⊢
        by_cases hvx : less v x = true
        · simp only [List.cons_append]
          rw [mergeUpList_cons_cons, if_pos hvx, mergeUpList_cons_cons, if_pos hvx]
          rw [mergeUpList_nil_right, mergeUpList_nil_right]
          simp
        · simp only [List.cons_append]
          rw [mergeUpList_cons_cons, if_neg hvx, mergeUpList_cons_cons, if_neg hvx]
          have := ih a' [] u v (by simp at hlen ⊢; omega) (by simp) hvu
          simp only [List.nil_append] at this
          rw [this]
          simp
      | cons y b' =>
        by_cases hyx : less y x = true
        · simp only [List.cons_append]
          rw [mergeUpList_cons_cons, if_pos hyx, mergeUpList_cons_cons, if_pos hyx]
          have := ih (x :: a') b' u v (by simp at hlen ⊢; omega)
            (pb.of_cons) hvu
          simp only [List.cons_append] at this
          rw [this]
          simp
        · simp only [List.cons_append]
          rw [mergeUpList_cons_cons, if_neg hyx, mergeUpList_cons_cons, if_neg hyx]
          have := ih a' (y :: b') u v (by simp at hlen ⊢; omega) pb hvu
          simp only [List.cons_append] at this
          rw [this]
          simp

/-- When `v` is at least the left run's maximum `u` (`¬(v < u)`), the
forward merge sends `v` to the very end. -/
theorem mergeUpList_concat_left {less : α → α → Bool} (h : IsSWO less)
    (n : Nat) : ∀ (a b : List α) (u v : α), a.length + b.length ≤ n →
    List.Pairwise (fun x y => less y x = false) (a ++ [u]) →
    less v u = false →
    mergeUpList less (a ++ [u]) (b ++ [v])
      = mergeUpList less (a ++ [u]) b ++ [v] := by
  have hnil : ∀ (a : List α) (u v : α),
      List.Pairwise (fun x y => less y x = false) (a ++ [u]) →
      less v u = false →
      mergeUpList less (a ++ [u]) ([] ++ [v])
        = mergeUpList less (a ++ [u]) [] ++ [v] := by
    intro a u v pa hvu
    simp only [List.nil_append, mergeUpList_nil_right]
    apply mergeUpList_single_min
    intro z hz
    rcases List.mem_append.mp hz with hza | hzu
    · have huz : less u z = false :=
        (List.pairwise_append.mp pa).2.2 z hza u (by simp)
      exact h.not_lt_trans v u z hvu huz
    · have hzu' : z = u := by simpa using hzu
      rw [hzu']; exact hvu
  induction n with
  | zero =>
    intro a b u v hlen pa hvu
    have hb : b = [] := by
      cases b with
      | nil => rfl
      | cons _ _ => simp at hlen
    rw [hb]
    exact hnil a u v pa hvu
  | succ n ih =>
    intro a b u v hlen pa hvu
    cases b with
    | nil => exact hnil a u v pa hvu
    | cons y b' =>
      cases a with
      | nil =>
        simp only [List.nil_append] at pa ⊢
        by_cases hyu : less y u = true
        · simp only [List.cons_append]
          rw [mergeUpList_cons_cons, if_pos hyu, mergeUpList_cons_cons, if_pos hyu]
          have := ih [] b' u v (by simp at hlen ⊢; omega) (by simp) hvu
          simp only [List.nil_append] at this
          rw [this]
          simp
        · simp only [List.cons_append]
          rw [mergeUpList_cons_cons, if_neg hyu, mergeUpList_cons_cons, if_neg hyu]
          rw [mergeUpList_nil_left, mergeUpList_nil_left]
          simp
      | cons x a' =>
        by_cases hyx : less y x = true
        · simp only [List.cons_append]
          rw [mergeUpList_cons_cons, if_pos hyx, mergeUpList_cons_cons, if_pos hyx]
          have := ih (x :: a') b' u v (by simp at hlen ⊢; omega) pa hvu
          simp only [List.cons_append] at this
          rw [this]
          simp
        · simp only [List.cons_append]
          rw [mergeUpList_cons_cons, if_neg hyx, mergeUpList_cons_cons, if_neg hyx]
          have := ih a' (y :: b') u v (by simp at hlen ⊢; omega) pa.of_cons hvu
          simp only [List.cons_append] at this
          rw [this]
          simp

theorem mergeDownList_nil_left (less : α → α → Bool) (b : List α) :
    mergeDownList less [] b = b := by
  rw [mergeDownList]
  simp [mergeDownRev_nil_left]

theorem mergeDownList_nil_right (less : α → α → Bool) (a : List α) :
    mergeDownList less a [] = a := by
  rw [mergeDownList]
  simp [mergeDownRev_nil_right]

/-- On sorted runs under a strict weak order, the backward merge computes
exactly the forward (left-tie-favoring) merge. -/
theorem mergeDownList_eq_mergeUpList {less : α → α → Bool} (h : IsSWO less)
    (a b : List α)
    (pa : List.Pairwise (fun x y => less y x = false) a)
    (pb : List.Pairwise (fun x y => less y x = false) b) :
    mergeDownList less a b = mergeUpList less a b := by
  suffices hgen : ∀ (n : Nat) (a b : List α), a.length + b.length ≤ n →
      List.Pairwise (fun x y => less y x = false) a →
      List.Pairwise (fun x y => less y x = false) b →
      mergeDownList less a b = mergeUpList less a b by
    exact hgen (a.length + b.length) a b le_rfl pa pb
  intro n
  induction n with
  | zero =>
    intro a b hlen _ _
    have ha : a = [] := by cases a with
      | nil => rfl
      | cons _ _ => simp at hlen
    rw [ha, mergeDownList_nil_left, mergeUpList_nil_left]
  | succ n ih =>
    intro a b hlen pa pb
    rcases List.eq_nil_or_concat a with ha | ⟨a', u, ha⟩
    · rw [ha, mergeDownList_nil_left, mergeUpList_nil_left]
    rcases List.eq_nil_or_concat b with hb | ⟨b', v, hb⟩
    · rw [hb, mergeDownList_nil_right, mergeUpList_nil_right]
    rw [List.concat_eq_append] at ha
    rw [List.concat_eq_append] at hb
    rw [ha, hb]
    have hrev : mergeDownList less (a' ++ [u]) (b' ++ [v])
        = (mergeDownRev less (u :: a'.reverse) (v :: b'.reverse)).reverse := by
      rw [mergeDownList]
      simp
    by_cases hvu : less v u = true
    · have hstep : mergeDownList less (a' ++ [u]) (b' ++ [v])
          = mergeDownList less a' (b' ++ [v]) ++ [u] := by
        rw [hrev, mergeDownRev_cons_cons, if_pos hvu]
        rw [mergeDownList]
        simp
      rw [hstep]
      have hpa' : List.Pairwise (fun x y => less y x = false) a' := by
        rw [ha] at pa
        exact (List.pairwise_append.mp pa).1
      have hih := ih a' (b' ++ [v]) (by rw [ha, hb] at hlen; simp at hlen ⊢; omega)
        hpa' (by rw [hb] at pb; exact pb)
      rw [hih]
      rw [mergeUpList_concat_right h (a'.length + b'.length) a' b' u v le_rfl
        (by rw [hb] at pb; exact pb) hvu]
    · have hvu' : less v u = false := by
        cases hval : less v u with
        | false => rfl
        | true => exact absurd hval hvu
      have hstep : mergeDownList less (a' ++ [u]) (b' ++ [v])
          = mergeDownList less (a' ++ [u]) b' ++ [v] := by
        rw [hrev, mergeDownRev_cons_cons, if_neg hvu]
        rw [mergeDownList]
        simp
      rw [hstep]
      have hpb' : List.Pairwise (fun x y => less y x = false) b' := by
        rw [hb] at pb
        exact (List.pairwise_append.mp pb).1
      have hih := ih (a' ++ [u]) b' (by rw [ha, hb] at hlen; simp at hlen ⊢; omega)
        (by rw [ha] at pa; exact pa) hpb'
      rw [hih]
      rw [mergeUpList_concat_left h (a'.length + b'.length) a' b' u v le_rfl
        (by rw [ha] at pa; exact pa) hvu']

/-- `merge.rs` `impl Merge<T> for [T]`, `can_merge` (lines 26-28): the
external buffer can hold `a` or can hold `b`. -/
def sliceCanMerge (ext a b : List α) : Bool :=
  decide (a.length ≤ ext.length) || decide (b.length ≤ ext.length)

/-- `merge.rs` `impl MergeUnchecked<T> for [T]` (lines 35-43): copy the
shorter run into the buffer, then merge forward (when `a` was copied) or
backward (when `b` was copied). -/
def sliceMergeUnchecked (less : α → α → Bool) (a b : List α) : List α :=
  if a.length ≤ b.length then mergeUpList less a b else mergeDownList less a b

/-- `Merge::merge` (merge.rs lines 13-21) on the external buffer: run the
check, then merge; the second component is the final contents of the
`a ++ b` region (unchanged on `Fail`). -/
def sliceMerge (less : α → α → Bool) (ext a b : List α) : MergeOutcome × List α :=
  if sliceCanMerge ext a b then (.Done, sliceMergeUnchecked less a b)
  else (.Fail, a ++ b)

/-- C5: the external-buffer merge returns `Done` exactly when
`|X| ≥ min(|a|, |b|)`, in which case the region becomes the stable
left-tie-favoring merge of the two sorted runs; on `Fail` the runs are
untouched. -/
theorem sliceMerge_spec {less : α → α → Bool} (h : IsSWO less)
    (ext a b : List α)
    (pa : List.Chain' (fun x y => less y x = false) a)
    (pb : List.Chain' (fun x y => less y x = false) b) :
    ((sliceMerge less ext a b).1 = MergeOutcome.Done ↔
        min a.length b.length ≤ ext.length) ∧
    ((sliceMerge less ext a b).1 = MergeOutcome.Done →
        (sliceMerge less ext a b).2 = mergeUpList less a b) ∧
    ((sliceMerge less ext a b).1 = MergeOutcome.Fail →
        (sliceMerge less ext a b).2 = a ++ b) := by
  haveI : IsTrans α (fun x y => less y x = false) :=
    ⟨fun x y z hxy hyz => h.not_lt_trans z y x hyz hxy⟩
  have hpa : List.Pairwise (fun x y => less y x = false) a :=
    List.chain'_iff_pairwise.mp pa
  have hpb : List.Pairwise (fun x y => less y x = false) b :=
    List.chain'_iff_pairwise.mp pb
  by_cases hcan : sliceCanMerge ext a b = true
  · rw [sliceMerge, if_pos hcan]
    refine ⟨?_, ?_, ?_⟩
    · simp only [true_iff]
      rw [sliceCanMerge] at hcan
      simp only [Bool.or_eq_true, decide_eq_true_eq] at hcan
      omega
    · intro _
      simp only
      rw [sliceMergeUnchecked]
      by_cases hab : a.length ≤ b.length
      · rw [if_pos hab]
      · rw [if_neg hab]
        exact mergeDownList_eq_mergeUpList h a b hpa hpb
    · intro hfail
      simp at hfail
  · rw [sliceMerge, if_neg hcan]
    refine ⟨?_, ?_, ?_⟩
    · simp only
      constructor
      · intro hcontra
        exact absurd hcontra (by simp)
      · intro hmin
        rw [sliceCanMerge] at hcan
        simp only [Bool.or_eq_true, decide_eq_true_eq] at hcan
        omega
    · intro hdone
      simp at hdone
    · intro _
      rfl

/-- Witness for C5: with a 2-slot buffer and runs of lengths 3 and 2 the
merge succeeds and produces the stable merge; the hypotheses hold at this
input. -/
theorem sliceMerge_spec_witness :
    ((sliceMerge natLess [0, 0] [1, 3, 5] [2, 3]).1 = MergeOutcome.Done ↔
        min ([1, 3, 5] : List Nat).length ([2, 3] : List Nat).length
          ≤ ([0, 0] : List Nat).length) ∧
    ((sliceMerge natLess [0, 0] [1, 3, 5] [2, 3]).1 = MergeOutcome.Done →
        (sliceMerge natLess [0, 0] [1, 3, 5] [2, 3]).2
          = mergeUpList natLess [1, 3, 5] [2, 3]) ∧
    ((sliceMerge natLess [0, 0] [1, 3, 5] [2, 3]).1 = MergeOutcome.Fail →
        (sliceMerge natLess [0, 0] [1, 3, 5] [2, 3]).2 = [1, 3, 5] ++ [2, 3]) :=
  sliceMerge_spec isSWO_natLess [0, 0] [1, 3, 5] [2, 3]
    (by simp [natLess]) (by simp [natLess])

/-- C6: every merge primitive breaks ties toward the left run: on equal
candidates `merge_up` emits the `a`-element first, `merge_down` places the
`b`-element last (so the equal `a`-element precedes it), and the
block-merge drop step drops the A-block first. -/
theorem merge_tie_left_bias (less : α → α → Bool) :
    (∀ (x y : α) (a b : List α), CmpEquiv less x y →
      mergeUpList less (x :: a) (y :: b) = x :: mergeUpList less a (y :: b)) ∧
    (∀ (u v : α) (a b : List α), CmpEquiv less u v →
      mergeDownList less (a ++ [u]) (b ++ [v])
        = mergeDownList less (a ++ [u]) b ++ [v]) ∧
    (∀ (cntA cntB : Nat) (bHead aHead : α), cntA ≠ 0 → cntB ≠ 0 →
      CmpEquiv less bHead aHead → dropId less cntA cntB bHead aHead = BlockA) := by
  refine ⟨?_, ?_, ?_⟩
  · intro x y a b heq
    rw [mergeUpList_cons_cons, if_neg (by rw [heq.2]; exact Bool.noConfusion)]
  · intro u v a b heq
    rw [mergeDownList, mergeDownList]
    simp only [List.reverse_append, List.reverse_cons, List.reverse_nil,
      List.nil_append, List.cons_append]
    rw [mergeDownRev_cons_cons, if_neg (by rw [heq.2]; exact Bool.noConfusion)]
    simp
  · intro cntA cntB bHead aHead hA hB heq
    rw [dropId, BlockA]
    have h1 : (cntB == 0) = false := by simpa using hB
    have h2 : (cntA != 0) = true := by simpa using hA
    rw [h1, h2, heq.1]
    rfl

/-- Witness for C6 at concrete tied inputs. -/
theorem merge_tie_left_bias_witness :
    (CmpEquiv natLess 4 4 →
      mergeUpList natLess (4 :: [6]) (4 :: [5]) = 4 :: mergeUpList natLess [6] (4 :: [5])) ∧
    (CmpEquiv natLess 7 7 →
      mergeDownList natLess ([2] ++ [7]) ([3] ++ [7])
        = mergeDownList natLess ([2] ++ [7]) [3] ++ [7]) ∧
    (CmpEquiv natLess 9 9 → dropId natLess 2 3 9 9 = BlockA) :=
  ⟨fun he => (merge_tie_left_bias natLess).1 4 4 [6] [5] he,
   fun he => (merge_tie_left_bias natLess).2.1 7 7 [2] [3] he,
   fun he => (merge_tie_left_bias natLess).2.2 2 3 9 9 (by decide) (by decide) he⟩

/-! ## The size schedule (`src/aero.rs::sort_with_merge_strategy`) -/

/-- Modelled from the spec: `sort_util::op::log2_ceil` is `⌈log₂·⌉`. -/
def log2Ceil (n : Nat) : Nat := Nat.clog 2 n

/-- `aero.rs` line 24: the power-of-two schedule factor
`1 << log2_ceil(n / 16)`. -/
def scheduleFactor (n : Nat) : Nat := 2 ^ log2Ceil (n / 16)

/-- `aero.rs` line 25: `bound(i) = (n as u128 * i / factor) as usize`, with
the 128-bit arithmetic made explicit as a reduction modulo `2^128`. -/
def scheduleBound (n i : Nat) : Nat :=
  n * i % 2 ^ 128 / scheduleFactor n

/-- C8: for slice lengths up to `isize::MAX` and `i ≤ factor`, the product
`n * i` stays below `2^126` (so the u128 computation is exact:
`bound(i) = ⌊n·i/factor⌋`), and the schedule covers all of `V`:
`bound(0) = 0` and `bound(factor) = n`. -/
theorem scheduleBound_exact (n i : Nat) (hn : n ≤ 2 ^ 63 - 1)
    (hi : i ≤ scheduleFactor n) :
    n * i < 2 ^ 126 ∧
    scheduleBound n i = n * i / scheduleFactor n ∧
    scheduleBound n 0 = 0 ∧
    scheduleBound n (scheduleFactor n) = n := by
  have hfact : scheduleFactor n ≤ 2 ^ 59 := by
    rw [scheduleFactor, log2Ceil]
    have hdiv : n / 16 ≤ 2 ^ 59 := by
      have : (2 : Nat) ^ 63 - 1 ≤ 16 * 2 ^ 59 := by norm_num
      omega
    have hclog : Nat.clog 2 (n / 16) ≤ 59 := by
      have h1 := Nat.clog_mono_right 2 hdiv
      rwa [Nat.clog_pow 2 59 (by norm_num)] at h1
    exact Nat.pow_le_pow_right (by norm_num) hclog
  have hprod : n * i < 2 ^ 126 := by
    have h1 : n * i ≤ (2 ^ 63 - 1) * 2 ^ 59 :=
      Nat.mul_le_mul hn (le_trans hi hfact)
    have h2 : (2 ^ 63 - 1) * 2 ^ 59 < 2 ^ 126 := by norm_num
    omega
  have hfactpos : 0 < scheduleFactor n := Nat.pos_pow_of_pos _ (by norm_num)
  have hmod : n * i % 2 ^ 128 = n * i := by
    apply Nat.mod_eq_of_lt
    have : (2 : Nat) ^ 126 < 2 ^ 128 := by norm_num
    omega
  refine ⟨hprod, ?_, ?_, ?_⟩
  · rw [scheduleBound, hmod]
  · rw [scheduleBound]
    simp
  · rw [scheduleBound]
    have hmodf : n * scheduleFactor n % 2 ^ 128 = n * scheduleFactor n := by
      apply Nat.mod_eq_of_lt
      have h1 : n * scheduleFactor n ≤ (2 ^ 63 - 1) * 2 ^ 59 :=
        Nat.mul_le_mul hn hfact
      have h2 : (2 ^ 63 - 1) * 2 ^ 59 < 2 ^ 128 := by norm_num
      omega
    rw [hmodf]
    exact Nat.mul_div_cancel n hfactpos

/-- Witness for C8 at `n = 1000` (factor `2^6 = 64`) and `i = 64`. -/
theorem scheduleBound_exact_witness :
    1000 * 64 < 2 ^ 126 ∧
    scheduleBound 1000 64 = 1000 * 64 / scheduleFactor 1000 ∧
    scheduleBound 1000 0 = 0 ∧
    scheduleBound 1000 (scheduleFactor 1000) = 1000 := by
  have hclog : Nat.clog 2 62 = 6 := by
    apply le_antisymm
    · rw [← Nat.le_pow_iff_clog_le (by norm_num)]
      norm_num
    · by_contra hc
      have h5 : Nat.clog 2 62 ≤ 5 := by omega
      rw [← Nat.le_pow_iff_clog_le (by norm_num)] at h5
      norm_num at h5
  have hfac : scheduleFactor 1000 = 64 := by
    rw [scheduleFactor, log2Ceil]
    norm_num
    rw [hclog]
    norm_num
  have := scheduleBound_exact 1000 64 (by norm_num) (by rw [hfac])
  rw [hfac] at this
  rw [hfac]
  exact this

/-! ## Rotation merge tails (`src/merge.rs::merge_right`) -/

/-- `merge.rs::merge_right` (lines 128-148), reduced to the state that
determines its return value: the remaining tails of `a` and `b` (rotations
only move already-placed elements and keep each remaining tail's order).
Each iteration drops from `b` its leading elements less than the head of
the remaining `a` (the binary search `search::binary` is modelled from the
spec as the insertion point, i.e. the length of the satisfying prefix),
then — if `b` is not exhausted — drops from `a` its leading elements not
greater than the new head of `b`; it returns the tail lengths `[n, m]` as
soon as one side is exhausted. -/
def mergeRightTails (less : α → α → Bool) : List α → List α → Nat × Nat
  | [], b => (0, b.length)
  | x :: a, b =>
    match hb : b.drop (b.takeWhile (fun y => less y x)).length with
    | [] => (a.length + 1, 0)
    | z :: b' =>
      mergeRightTails less
        ((x :: a).drop ((x :: a).takeWhile (fun w => !less z w)).length) (z :: b')
termination_by a b => a.length + b.length
decreasing_by
  simp only [List.length_drop, List.length_cons]
  have hlenb : (z :: b').length = b.length - (b.takeWhile (fun y => less y x)).length := by
    rw [← hb, List.length_drop]
  simp only [List.length_cons] at hlenb
  by_cases hidx : (b.takeWhile (fun y => less y x)).length = 0
  · rw [hidx, List.drop_zero] at hb
    have hzx : less z x = false := by
      rw [hb] at hidx
      rw [List.takeWhile_cons] at hidx
      cases hpz : less z x with
      | false => rfl
      | true => rw [if_pos hpz] at hidx; simp at hidx
    have hcnt : 1 ≤ ((x :: a).takeWhile (fun w => !less z w)).length := by
      rw [List.takeWhile_cons, if_pos (by rw [hzx]; rfl)]
      simp
    omega
  · have hle : (b.takeWhile (fun y => less y x)).length ≤ b.length :=
      List.Sublist.length_le (List.takeWhile_sublist _)
    omega

/-- C9: `merge_right` always returns a pair of tail lengths of which at
least one is zero, so `l.max(r)` — as used by `internal::merge_right`
(internal.rs lines 84-92) — is the single surviving tail `l + r`. -/
theorem mergeRightTails_one_zero (less : α → α → Bool) (a b : List α) :
    ((mergeRightTails less a b).1 = 0 ∨ (mergeRightTails less a b).2 = 0) ∧
    (mergeRightTails less a b).1.max (mergeRightTails less a b).2
      = (mergeRightTails less a b).1 + (mergeRightTails less a b).2 := by
  have hz : (mergeRightTails less a b).1 = 0 ∨ (mergeRightTails less a b).2 = 0 := by
    induction a, b using mergeRightTails.induct less with
    | case1 b => left; rw [mergeRightTails]
    | case2 x a b hb => right; rw [mergeRightTails]; rw [hb]
    | case3 x a b z b' hb ih =>
      rw [mergeRightTails, hb]
      exact ih
  refine ⟨hz, ?_⟩
  rcases hz with hz | hz <;> rw [hz] <;> simp [Nat.max_eq_left, Nat.max_eq_right]
